import Mathlib

/-!
# Verification of the `CurrencyAmount` module (`src/utils/currency.utils.ts`)

A shallow embedding of the currency-amount utilities of the repository.
Strings are modelled as `List Char` (a JS string is a sequence of UTF-16
units; every string reachable here is plain ASCII).  JavaScript `bigint`
values are modelled as `ℤ`.  JavaScript `number` values are modelled by
`JsNumber`: an IEEE-754 binary64 value carried as its exact rational
value when finite, with `±Infinity` and `NaN`, and every float operation
re-rounds its exact result to the nearest double (ties to even), so the
`Number(bigint)` precision loss and the overflow-to-`Infinity` paths of
`multiply` / `divide` are preserved.  `parseFloat` is read as the exact
rational of the accepted numeral (its result is only compared for
equality of exact values, which transfers to equal doubles).
Operations that can throw in JavaScript return `Option` / `Except`.
-/

/-- Code points treated as whitespace by the `StringToBigInt` /
`parseFloat` trimming steps (space, tab, LF, CR, VT, FF, NBSP, LS, PS,
BOM). -/
def isStrWhiteSpace (c : Char) : Bool :=
  c.toNat = 32 || c.toNat = 9 || c.toNat = 10 || c.toNat = 13 ||
  c.toNat = 11 || c.toNat = 12 || c.toNat = 160 || c.toNat = 8232 ||
  c.toNat = 8233 || c.toNat = 65279

/-- Decimal digit test, `'0' ≤ c ≤ '9'` on code points. -/
def isDigitChar (c : Char) : Bool :=
  48 ≤ c.toNat && c.toNat ≤ 57

/-- Numeric value of a decimal digit character. -/
def digitVal (c : Char) : ℕ := c.toNat - 48

/-- Value of a big-endian decimal digit string. -/
def natOfDigits (l : List Char) : ℕ :=
  l.foldl (fun a c => 10 * a + digitVal c) 0

/-- The character for a decimal digit. -/
def digitChar (d : ℕ) : Char :=
  if d = 0 then '0' else if d = 1 then '1' else if d = 2 then '2'
  else if d = 3 then '3' else if d = 4 then '4' else if d = 5 then '5'
  else if d = 6 then '6' else if d = 7 then '7' else if d = 8 then '8'
  else '9'

/-- Big-endian decimal digit list of a natural number; fuel-based so that
it reduces by `decide`.  `natToDigitsAux fuel n` is correct when `n ≤ fuel`. -/
def natToDigitsAux : ℕ → ℕ → List Char
  | 0, _ => []
  | fuel + 1, n =>
    if n = 0 then [] else natToDigitsAux fuel (n / 10) ++ [digitChar (n % 10)]

/-- Decimal rendering of a natural number, `(0).toString() = "0"`. -/
def natToDigitChars (n : ℕ) : List Char :=
  if n = 0 then ['0'] else natToDigitsAux (n + 1) n

/-- JS `BigInt.prototype.toString()` (radix 10): optional minus sign
followed by the decimal digits. -/
def bigIntToString (n : ℤ) : List Char :=
  if n < 0 then '-' :: natToDigitChars n.natAbs else natToDigitChars n.toNat

/-- Strip leading and trailing whitespace, as `StringToBigInt` does. -/
def trimWs (l : List Char) : List Char :=
  ((l.dropWhile isStrWhiteSpace).reverse.dropWhile isStrWhiteSpace).reverse

/-- A non-empty all-decimal-digit string, as required after the sign of a
`StringToBigInt` decimal literal; `none` models a `SyntaxError`. -/
def decDigitsVal (l : List Char) : Option ℕ :=
  if l ≠ [] ∧ l.all isDigitChar then some (natOfDigits l) else none

/-- Value of one digit character in radix up to 16 (`0-9a-fA-F`). -/
def radixDigitVal (c : Char) : Option ℕ :=
  if 48 ≤ c.toNat ∧ c.toNat ≤ 57 then some (c.toNat - 48)
  else if 97 ≤ c.toNat ∧ c.toNat ≤ 102 then some (c.toNat - 87)
  else if 65 ≤ c.toNat ∧ c.toNat ≤ 70 then some (c.toNat - 55)
  else none

/-- Value of a non-empty digit string in radix `r`; `none` on a bad digit
or an empty string. -/
def radixDigitsVal (r : ℕ) (l : List Char) : Option ℕ :=
  l.foldl
    (fun acc c =>
      match acc, radixDigitVal c with
      | some a, some d => if d < r then some (r * a + d) else none
      | _, _ => none)
    (if l = [] then none else some 0)

/-- JS `BigInt(string)` (the `StringToBigInt` operation): trims whitespace,
accepts the empty string as `0`, a `0x`/`0o`/`0b` radix literal, or an
optionally signed decimal digit string; anything else throws (`none`). -/
def jsBigIntOfChars (l : List Char) : Option ℤ :=
  match trimWs l with
  | [] => some 0
  | c :: rest =>
    if c = '0' ∧ (rest.headD ' ' = 'x' ∨ rest.headD ' ' = 'X') then
      (radixDigitsVal 16 rest.tail).map Int.ofNat
    else if c = '0' ∧ (rest.headD ' ' = 'o' ∨ rest.headD ' ' = 'O') then
      (radixDigitsVal 8 rest.tail).map Int.ofNat
    else if c = '0' ∧ (rest.headD ' ' = 'b' ∨ rest.headD ' ' = 'B') then
      (radixDigitsVal 2 rest.tail).map Int.ofNat
    else if c = '-' then (decDigitsVal rest).map (fun n => -(n : ℤ))
    else if c = '+' then (decDigitsVal rest).map (fun n => (n : ℤ))
    else (decDigitsVal (c :: rest)).map (fun n => (n : ℤ))

/-- JS `String.prototype.split('.')`: the list of (possibly empty)
segments between the dots. -/
def jsSplitDot : List Char → List (List Char)
  | [] => [[]]
  | c :: r =>
    if c = '.' then [] :: jsSplitDot r
    else
      match jsSplitDot r with
      | [] => [[c]]
      | h :: t => (c :: h) :: t

/-- JS `parseFloat`: skip leading whitespace, then read the longest
prefix of the form `[sign] digits [. digits] [e [sign] digits]` (also
`.digits`), as an exact rational; `none` models `NaN`.  The `Infinity`
literal is omitted: it is unreachable from `formatHuman`, whose input
characters come from a bigint rendering and zero padding. -/
def jsParseFloat (l : List Char) : Option ℚ :=
  let t := l.dropWhile isStrWhiteSpace
  let neg : Bool := t.headD 'x' = '-'
  let t1 := if t.headD 'x' = '-' ∨ t.headD 'x' = '+' then t.tail else t
  let intDigits := t1.takeWhile isDigitChar
  let r1 := t1.dropWhile isDigitChar
  let hasDot : Bool := r1.headD 'x' = '.'
  let fracDigits := if hasDot then r1.tail.takeWhile isDigitChar else []
  let r2 := if hasDot then r1.tail.dropWhile isDigitChar else r1
  if intDigits = [] ∧ fracDigits = [] then none
  else
    let hasExp : Bool := r2.headD 'x' = 'e' ∨ r2.headD 'x' = 'E'
    let e1 := if hasExp then r2.tail else []
    let eneg : Bool := e1.headD 'x' = '-'
    let e2 := if e1.headD 'x' = '-' ∨ e1.headD 'x' = '+' then e1.tail else e1
    let eds := e2.takeWhile isDigitChar
    let expVal : ℤ :=
      if hasExp ∧ eds ≠ [] then
        (if eneg then -(natOfDigits eds : ℤ) else (natOfDigits eds : ℤ))
      else 0
    let mant : ℚ :=
      (natOfDigits intDigits : ℚ) +
        (natOfDigits fracDigits : ℚ) / 10 ^ fracDigits.length
    some ((if neg then -mant else mant) * 10 ^ expVal)

/-! ## The currency data model (`currency.utils.ts`) -/

/-- `enum CurrencyCode { USD = 'usd', SOL = 'sol' }` -/
inductive CurrencyCode
  | USD
  | SOL
deriving DecidableEq

/-- `enum CurrencyCategory { Fiat = 'fiat', Crypto = 'crypto' }` -/
inductive CurrencyCategory
  | Fiat
  | Crypto
deriving DecidableEq

/-- `type CurrencyInfo = { code; decimals; name; category }` -/
structure CurrencyInfo where
  code : CurrencyCode
  decimals : ℕ
  name : List Char
  category : CurrencyCategory
deriving DecidableEq

/-- The runtime string value of a `CurrencyCode` enum member. -/
def codeChars : CurrencyCode → List Char
  | .USD => ['u', 's', 'd']
  | .SOL => ['s', 'o', 'l']

/-- The USD entry of `currencyMap`: 4 decimals, fiat. -/
def usdInfo : CurrencyInfo :=
  { code := .USD, decimals := 4, name := "US Dollar".toList, category := .Fiat }

/-- The SOL entry of `currencyMap`: 9 decimals, crypto. -/
def solInfo : CurrencyInfo :=
  { code := .SOL, decimals := 9, name := "Solana".toList, category := .Crypto }

/-- `currencyMap` as a total function on the enum. -/
def currencyMap : CurrencyCode → CurrencyInfo
  | .USD => usdInfo
  | .SOL => solInfo

/-- `currencyMap.get(code)` looked up by the runtime string key, so that
an unknown code string can miss. -/
def currencyMapGet (code : List Char) : Option CurrencyInfo :=
  if code = codeChars .USD then some usdInfo
  else if code = codeChars .SOL then some solInfo
  else none

/-- `type AmountType = string | number | bigint`.  A `number` argument is
carried as its `toString()` rendering, which is the first thing
`parseInput` computes from it. -/
inductive AmountType
  | big (n : ℤ)
  | num (s : List Char)
  | str (s : List Char)
deriving DecidableEq

/-- `CurrencyAmount.parseInput`, with `this.currency` passed explicitly:
bigints are returned as-is; otherwise the value is stringified, a fiat
point-free string gets `'.' + '0'.repeat(decimals)` appended, the string
is split at `'.'`, the fractional part is right-padded / truncated to
`decimals` digits, and `BigInt(intPart + padded)` is taken (`none` models
the `SyntaxError` it can throw). -/
def parseInput (currency : CurrencyInfo) : AmountType → Option ℤ
  | .big n => some n
  | .num s | .str s =>
    let decimals := currency.decimals
    let num :=
      if currency.category = CurrencyCategory.Fiat ∧ ¬ s.contains '.' then
        s ++ '.' :: List.replicate decimals '0'
      else s
    let parts := jsSplitDot num
    let intPart := parts.headD []
    let fracPart := (parts.drop 1).headD []
    let padded :=
      (fracPart ++ List.replicate (decimals - fracPart.length) '0').take decimals
    jsBigIntOfChars (intPart ++ padded)

/-- `CurrencyAmount.formatHuman`, with the currency's `decimals` passed
explicitly: render the bigint, left-pad with `'0'` to `decimals + 1`
characters, cut `decimals` characters off the right as the fractional
part (with `|| '0'` guarding an empty integer part), and `parseFloat`
the rejoined string. -/
def formatHuman (decimals : ℕ) (value : ℤ) : Option ℚ :=
  let str := List.replicate (decimals + 1 - (bigIntToString value).length) '0'
      ++ bigIntToString value
  let intPart0 := if decimals = 0 then [] else str.take (str.length - decimals)
  let intPart := if intPart0 = [] then ['0'] else intPart0
  let fracPart := if decimals = 0 then str else str.drop (str.length - decimals)
  jsParseFloat (intPart ++ '.' :: fracPart)

/-- The errors of the module: `InvalidCurrency` is the constructor's
`throw new Error('Invalid currency code')`; `InvalidAmount` is the
`SyntaxError` escaping from `BigInt` during input parsing. -/
inductive CurrencyError
  | invalidCurrency
  | invalidAmount
deriving DecidableEq

/-- The state of a `CurrencyAmount` instance. -/
structure CurrencyAmount where
  amount : ℤ
  currency : CurrencyInfo
deriving DecidableEq

/-- The `CurrencyAmount` constructor / `currencyAmount` factory:
fails with `invalidCurrency` on an unknown code, then parses the input
(`invalidAmount` on failure) and stores the atomic bigint. -/
def currencyAmount (input : AmountType) (currencyCode : List Char) :
    Except CurrencyError CurrencyAmount :=
  match currencyMapGet currencyCode with
  | none => .error .invalidCurrency
  | some currency =>
    match parseInput currency input with
    | none => .error .invalidAmount
    | some a => .ok { amount := a, currency := currency }

/-- `add`: parse the value with the construction rules and add it to the
stored atomic amount; the mutated instance (returned as `this` in the
source) is the returned state. -/
def CurrencyAmount.add (ca : CurrencyAmount) (value : AmountType) :
    Option CurrencyAmount :=
  (parseInput ca.currency value).map fun x => { ca with amount := ca.amount + x }

/-- `subtract`: parse the value with the construction rules and subtract
it from the stored atomic amount. -/
def CurrencyAmount.subtract (ca : CurrencyAmount) (value : AmountType) :
    Option CurrencyAmount :=
  (parseInput ca.currency value).map fun x => { ca with amount := ca.amount - x }

/-! ### IEEE-754 binary64 for `multiply` / `divide`

The source computes `BigInt(Math.round(Number(this.amount) * factor))`:
the bigint goes through a lossy float64 conversion, the arithmetic is
float64 arithmetic (overflowing to `Infinity`, on which `BigInt` then
throws), and only then is the result rounded and stored.  The model
below implements binary64 exactly: a finite double carries its exact
rational value, conversion is round-to-nearest-ties-even with overflow
to `±Infinity` at `2^1024`, and every float operation re-rounds its
exact rational result.  (JS `-0` is collapsed into `0`, which `Math.round`
and `BigInt` cannot distinguish on this path.) -/

/-- An IEEE-754 binary64 value: a finite double carrying its exact
rational value (only representable values are ever constructed), or
`±Infinity`, or `NaN`. -/
inductive JsNumber
  | finite (q : ℚ)
  | posInf
  | negInf
  | nan
deriving DecidableEq

/-- Is this double finite? -/
def JsNumber.isFinite : JsNumber → Bool
  | .finite _ => true
  | _ => false

/-- Fuel-based `⌊log₂ n⌋` on naturals, correct for `1 ≤ n ≤ fuel`. -/
def natLog2Aux : ℕ → ℕ → ℕ
  | 0, _ => 0
  | fuel + 1, n => if n ≤ 1 then 0 else natLog2Aux fuel (n / 2) + 1

/-- `⌊log₂ n⌋` for `n ≥ 1` (0 for 0). -/
def natLog2 (n : ℕ) : ℕ := natLog2Aux n n

/-- `⌊log₂ q⌋` for a positive rational: the `e` with `2^e ≤ q < 2^(e+1)`. -/
def floorLog2Q (q : ℚ) : ℤ :=
  let e0 : ℤ := (natLog2 q.num.natAbs : ℤ) - (natLog2 q.den : ℤ)
  if q < 2 ^ e0 then e0 - 1 else e0

/-- Round a rational to the nearest integer, ties to the even integer
(the IEEE-754 default rounding applied on the scaled significand). -/
def roundHalfEven (x : ℚ) : ℤ :=
  if x - ⌊x⌋ < 1 / 2 then ⌊x⌋
  else if (1 : ℚ) / 2 < x - ⌊x⌋ then ⌊x⌋ + 1
  else if ⌊x⌋ % 2 = 0 then ⌊x⌋ else ⌊x⌋ + 1

/-- Round an exact rational to the nearest binary64 value
(round-to-nearest, ties to even): scale by the power-of-two grid of the
value's binade (clamped at the subnormal exponent), round the scaled
significand half-to-even, and overflow to `±Infinity` when the rounded
magnitude reaches `2^1024`. -/
def roundToDouble (x : ℚ) : JsNumber :=
  if x = 0 then .finite 0
  else
    let E : ℤ := max (floorLog2Q |x|) (-1022)
    let g : ℚ := 2 ^ (E - 52)
    let m : ℤ := roundHalfEven (|x| / g)
    let v : ℚ := m * g
    if 2 ^ 1024 ≤ v then (if x < 0 then .negInf else .posInf)
    else .finite (if x < 0 then -v else v)

/-- JS `Number(bigint)`: the bigint rounded to the nearest double. -/
def jsNumberOfBigInt (n : ℤ) : JsNumber := roundToDouble (n : ℚ)

/-- binary64 multiplication: the exact product re-rounded, with the JS
special cases (`NaN` propagates, `Infinity * 0` is `NaN`, signed
infinities otherwise). -/
def jsMul : JsNumber → JsNumber → JsNumber
  | .nan, _ => .nan
  | _, .nan => .nan
  | .posInf, .posInf => .posInf
  | .posInf, .negInf => .negInf
  | .negInf, .posInf => .negInf
  | .negInf, .negInf => .posInf
  | .posInf, .finite b => if b = 0 then .nan else if 0 < b then .posInf else .negInf
  | .finite a, .posInf => if a = 0 then .nan else if 0 < a then .posInf else .negInf
  | .negInf, .finite b => if b = 0 then .nan else if 0 < b then .negInf else .posInf
  | .finite a, .negInf => if a = 0 then .nan else if 0 < a then .negInf else .posInf
  | .finite a, .finite b => roundToDouble (a * b)

/-- binary64 division: the exact quotient re-rounded, with the JS
special cases (`NaN` propagates, `Infinity / Infinity` is `NaN`,
division by zero gives a signed `Infinity` and `0 / 0` gives `NaN`,
finite over `Infinity` gives `0`). -/
def jsDiv : JsNumber → JsNumber → JsNumber
  | .nan, _ => .nan
  | _, .nan => .nan
  | .posInf, .posInf => .nan
  | .posInf, .negInf => .nan
  | .negInf, .posInf => .nan
  | .negInf, .negInf => .nan
  | .posInf, .finite b => if 0 ≤ b then .posInf else .negInf
  | .negInf, .finite b => if 0 ≤ b then .negInf else .posInf
  | .finite _, .posInf => .finite 0
  | .finite _, .negInf => .finite 0
  | .finite a, .finite b =>
    if b = 0 then
      (if a = 0 then .nan else if 0 < a then .posInf else .negInf)
    else roundToDouble (a / b)

/-- JS `Math.round` on the exact value: round to nearest, ties toward
`+∞`. -/
def mathRound (x : ℚ) : ℤ := ⌊x + 1 / 2⌋

/-- JS `Math.round` on a double: the nearest integral value, ties toward
`+∞` (an integral value within 1 of a finite double is itself exactly
representable, so no re-rounding occurs); non-finite values pass
through. -/
def jsMathRound : JsNumber → JsNumber
  | .finite q => .finite ((mathRound q : ℤ) : ℚ)
  | x => x

/-- JS `BigInt(number)`: defined only for integral finite doubles;
`Infinity` / `NaN` / fractional values throw a `RangeError` (`none`). -/
def jsBigIntOfNumber : JsNumber → Option ℤ
  | .finite q => if q.den = 1 then some q.num else none
  | _ => none

/-- `multiply`: `BigInt(Math.round(Number(this.amount) * factor))`,
with the float64 arithmetic modelled exactly; `none` models the
`RangeError` that `BigInt` throws on a non-finite result. -/
def CurrencyAmount.multiply (ca : CurrencyAmount) (factor : JsNumber) :
    Option CurrencyAmount :=
  (jsBigIntOfNumber (jsMathRound (jsMul (jsNumberOfBigInt ca.amount) factor))).map
    fun r => { ca with amount := r }

/-- `divide`: `BigInt(Math.round(Number(this.amount) / divisor))`, with
the float64 arithmetic modelled exactly; `none` models the `RangeError`
that `BigInt` throws on a non-finite result (for instance a zero
divisor). -/
def CurrencyAmount.divide (ca : CurrencyAmount) (divisor : JsNumber) :
    Option CurrencyAmount :=
  (jsBigIntOfNumber (jsMathRound (jsDiv (jsNumberOfBigInt ca.amount) divisor))).map
    fun r => { ca with amount := r }

/-- `isPositive`: `this.amount > 0n`. -/
def CurrencyAmount.isPositive (ca : CurrencyAmount) : Bool :=
  0 < ca.amount

/-- `toDecimal`: `formatHuman` of the stored amount. -/
def CurrencyAmount.toDecimal (ca : CurrencyAmount) : Option ℚ :=
  formatHuman ca.currency.decimals ca.amount

/-- `toAtomic`: the stored amount rendered as a decimal string. -/
def CurrencyAmount.toAtomic (ca : CurrencyAmount) : List Char :=
  bigIntToString ca.amount

deriving instance DecidableEq for Except

/-- All characters of a list are decimal digits. -/
def AllDigits (l : List Char) : Prop := ∀ c ∈ l, isDigitChar c = true

/-- `parseInput` with the fiat special branch (lines appending
`'.' + '0'.repeat(decimals)` to a point-free fiat input) removed.
Comparison definition for the redundancy claim. -/
def parseInputNoFiat (currency : CurrencyInfo) : AmountType → Option ℤ
  | .big n => some n
  | .num s | .str s =>
    let decimals := currency.decimals
    let parts := jsSplitDot s
    let intPart := parts.headD []
    let fracPart := (parts.drop 1).headD []
    let padded :=
      (fracPart ++ List.replicate (decimals - fracPart.length) '0').take decimals
    jsBigIntOfChars (intPart ++ padded)

/-- The construction parse algorithm exactly as the specification words
it (comparison definition written from the spec's sentence, with no
fiat/crypto distinction): split at the decimal point, right-pad the
fractional part with zeros (or truncate it) to exactly `decimals` digits,
concatenate the integer and fractional parts and parse the result as an
integer; a missing fractional part acts as an all-zero one, and a raw
bigint is stored as-is. -/
def parseInputSpec (decimals : ℕ) : AmountType → Option ℤ
  | .big n => some n
  | .num s | .str s =>
    let intPart := (jsSplitDot s).headD []
    let fracPart := ((jsSplitDot s).drop 1).headD []
    let adjusted :=
      (fracPart ++ List.replicate (decimals - fracPart.length) '0').take decimals
    jsBigIntOfChars (intPart ++ adjusted)

/-- Whether JS `Number(string)` accepts the whole string: the meaning of
the spec's "numeric" input string (comparison definition written from the
spec's wording).  Optional whitespace around an optionally signed decimal
literal `digits [. digits] | . digits` with an optional exponent; the
radix and `Infinity` literal forms are omitted as irrelevant to the
refuting inputs, which are plain decimal-looking strings. -/
def numericStringSpec (s : List Char) : Bool :=
  let t := trimWs s
  if t = [] then true
  else
    let t1 := if t.headD 'x' = '-' ∨ t.headD 'x' = '+' then t.tail else t
    let intDigits := t1.takeWhile isDigitChar
    let r1 := t1.dropWhile isDigitChar
    let hasDot : Bool := r1.headD 'x' = '.'
    let fracDigits := if hasDot then r1.tail.takeWhile isDigitChar else []
    let r2 := if hasDot then r1.tail.dropWhile isDigitChar else r1
    if intDigits = [] ∧ fracDigits = [] then false
    else
      match r2 with
      | [] => true
      | e :: r3 =>
        if e = 'e' ∨ e = 'E' then
          let e2 := if r3.headD 'x' = '-' ∨ r3.headD 'x' = '+' then r3.tail else r3
          decide (¬ e2 = []) && e2.all isDigitChar
        else false


/-! ## Digit-string arithmetic -/

theorem natOfDigits_foldl (l : List Char) :
    ∀ a : ℕ, l.foldl (fun a c => 10 * a + digitVal c) a =
      a * 10 ^ l.length + natOfDigits l := by
  induction l with
  | nil => intro a; simp [natOfDigits]
  | cons c r ih =>
    intro a
    show List.foldl _ (10 * a + digitVal c) r = _
    rw [ih (10 * a + digitVal c)]
    have : natOfDigits (c :: r) = (10 * 0 + digitVal c) * 10 ^ r.length
        + natOfDigits r := by
      show List.foldl _ (10 * 0 + digitVal c) r = _
      rw [ih (10 * 0 + digitVal c)]
    rw [this]
    ring_nf
    simp [List.length_cons, pow_succ]
    ring

theorem natOfDigits_append (x y : List Char) :
    natOfDigits (x ++ y) = natOfDigits x * 10 ^ y.length + natOfDigits y := by
  show List.foldl _ 0 (x ++ y) = _
  rw [List.foldl_append]
  exact natOfDigits_foldl y (natOfDigits x)

theorem natOfDigits_replicate_zero (k : ℕ) :
    natOfDigits (List.replicate k '0') = 0 := by
  induction k with
  | zero => rfl
  | succ n ih =>
    rw [List.replicate_succ, show ('0' :: List.replicate n '0')
      = ['0'] ++ List.replicate n '0' from rfl, natOfDigits_append, ih]
    simp [natOfDigits, digitVal]

theorem natOfDigits_zeros_append (k : ℕ) (x : List Char) :
    natOfDigits (List.replicate k '0' ++ x) = natOfDigits x := by
  rw [natOfDigits_append, natOfDigits_replicate_zero]
  simp

theorem isDigitChar_digitChar (d : ℕ) : isDigitChar (digitChar d) = true := by
  unfold digitChar
  split_ifs <;> decide

theorem digitVal_digitChar (d : ℕ) (h : d < 10) :
    digitVal (digitChar d) = d := by
  unfold digitChar
  interval_cases d <;> decide

theorem natToDigitsAux_allDigits (fuel n : ℕ) :
    AllDigits (natToDigitsAux fuel n) := by
  induction fuel generalizing n with
  | zero => intro c hc; simp [natToDigitsAux] at hc
  | succ f ih =>
    intro c hc
    unfold natToDigitsAux at hc
    by_cases h0 : n = 0
    · simp [h0] at hc
    · rw [if_neg h0] at hc
      rcases List.mem_append.mp hc with h | h
      · exact ih _ c h
      · rcases List.mem_singleton.mp h with rfl
        exact isDigitChar_digitChar _

theorem natOfDigits_natToDigitsAux (fuel : ℕ) :
    ∀ n : ℕ, n ≤ fuel → natOfDigits (natToDigitsAux fuel n) = n := by
  induction fuel with
  | zero => intro n hn; interval_cases n; rfl
  | succ f ih =>
    intro n hn
    unfold natToDigitsAux
    by_cases h0 : n = 0
    · simp [h0, natOfDigits]
    · rw [if_neg h0, natOfDigits_append, ih (n / 10) (by omega)]
      simp [natOfDigits, digitVal_digitChar (n % 10) (Nat.mod_lt n (by norm_num))]
      omega

theorem natToDigitChars_allDigits (n : ℕ) : AllDigits (natToDigitChars n) := by
  unfold natToDigitChars
  by_cases h : n = 0
  · simp [h]; intro c hc; rcases List.mem_singleton.mp hc with rfl; decide
  · rw [if_neg h]; exact natToDigitsAux_allDigits _ _

theorem natOfDigits_natToDigitChars (n : ℕ) :
    natOfDigits (natToDigitChars n) = n := by
  unfold natToDigitChars
  by_cases h : n = 0
  · simp [h]; rfl
  · rw [if_neg h]; exact natOfDigits_natToDigitsAux (n + 1) n (by omega)

theorem natToDigitChars_ne_nil (n : ℕ) : natToDigitChars n ≠ [] := by
  unfold natToDigitChars
  by_cases h : n = 0
  · simp [h]
  · rw [if_neg h]
    unfold natToDigitsAux
    rw [if_neg h]
    simp

/-! ## Character-class facts and list-scanning lemmas -/

theorem digit_toNat_bounds {c : Char} (h : isDigitChar c = true) :
    48 ≤ c.toNat ∧ c.toNat ≤ 57 := by
  simpa [isDigitChar, Bool.and_eq_true, decide_eq_true_eq] using h

theorem digit_not_ws {c : Char} (h : isDigitChar c = true) :
    isStrWhiteSpace c = false := by
  have hb := digit_toNat_bounds h
  simp only [isStrWhiteSpace, Bool.or_eq_false_iff, decide_eq_false_iff_not]
  omega

theorem digit_ne_of_toNat {c : Char} (h : isDigitChar c = true)
    (x : Char) (hx : x.toNat < 48 ∨ 57 < x.toNat) : ¬ c = x := by
  intro he
  have hb := digit_toNat_bounds h
  rw [he] at hb
  omega

theorem takeWhile_all {p : Char → Bool} {l : List Char}
    (h : ∀ c ∈ l, p c = true) : l.takeWhile p = l := by
  induction l with
  | nil => rfl
  | cons c r ih =>
    rw [List.takeWhile_cons, h c (by simp), ih fun x hx => h x (by simp [hx])]
    simp

theorem dropWhile_all {p : Char → Bool} {l : List Char}
    (h : ∀ c ∈ l, p c = true) : l.dropWhile p = [] := by
  induction l with
  | nil => rfl
  | cons c r ih =>
    rw [List.dropWhile_cons, h c (by simp)]
    simp only [if_true]
    exact ih fun x hx => h x (by simp [hx])

theorem dropWhile_none {p : Char → Bool} {l : List Char}
    (h : ∀ c ∈ l, p c = false) : l.dropWhile p = l := by
  cases l with
  | nil => rfl
  | cons c r => rw [List.dropWhile_cons, h c (by simp)]; simp

theorem takeWhile_append_stop {p : Char → Bool} {l : List Char}
    (h : ∀ c ∈ l, p c = true) {x : Char} (hx : p x = false)
    (r : List Char) : (l ++ x :: r).takeWhile p = l := by
  induction l with
  | nil => simpa [List.takeWhile_cons] using hx
  | cons c t ih =>
    rw [List.cons_append, List.takeWhile_cons, h c (by simp)]
    simp only [if_true]
    rw [ih fun y hy => h y (by simp [hy])]

theorem dropWhile_append_stop {p : Char → Bool} {l : List Char}
    (h : ∀ c ∈ l, p c = true) {x : Char} (hx : p x = false)
    (r : List Char) : (l ++ x :: r).dropWhile p = x :: r := by
  induction l with
  | nil => simp [List.dropWhile_cons, hx]
  | cons c t ih =>
    rw [List.cons_append, List.dropWhile_cons, h c (by simp)]
    simp only [if_true]
    exact ih fun y hy => h y (by simp [hy])

theorem trimWs_no_ws {l : List Char}
    (h : ∀ c ∈ l, isStrWhiteSpace c = false) : trimWs l = l := by
  unfold trimWs
  rw [dropWhile_none h, dropWhile_none (by intro c hc; exact h c (List.mem_reverse.mp hc)),
    List.reverse_reverse]

theorem trimWs_digits {l : List Char} (h : AllDigits l) : trimWs l = l :=
  trimWs_no_ws fun c hc => digit_not_ws (h c hc)

theorem decDigitsVal_digits {l : List Char} (h : AllDigits l) (hne : l ≠ []) :
    decDigitsVal l = some (natOfDigits l) := by
  unfold decDigitsVal
  rw [if_pos ⟨hne, List.all_eq_true.mpr h⟩]

/-! ## Evaluation of the JS primitives on digit strings -/

theorem headD_digit_or_space {l : List Char} (h : AllDigits l) :
    (l.headD ' ').toNat = 32 ∨
      (48 ≤ (l.headD ' ').toNat ∧ (l.headD ' ').toNat ≤ 57) := by
  cases l with
  | nil => left; rfl
  | cons d t => right; exact digit_toNat_bounds (h d (by simp))

theorem jsBigIntOfChars_digits {l : List Char} (h : AllDigits l) (hne : l ≠ []) :
    jsBigIntOfChars l = some ((natOfDigits l : ℤ)) := by
  obtain ⟨c, rest, rfl⟩ := List.exists_cons_of_ne_nil hne
  have hc : isDigitChar c = true := h c (by simp)
  have hrest : AllDigits rest := fun x hx => h x (by simp [hx])
  have hhead := headD_digit_or_space hrest
  have hx : ¬ (rest.headD ' ' = 'x' ∨ rest.headD ' ' = 'X') := by
    rintro (he | he) <;> rw [he] at hhead <;> revert hhead <;> decide
  have ho : ¬ (rest.headD ' ' = 'o' ∨ rest.headD ' ' = 'O') := by
    rintro (he | he) <;> rw [he] at hhead <;> revert hhead <;> decide
  have hb : ¬ (rest.headD ' ' = 'b' ∨ rest.headD ' ' = 'B') := by
    rintro (he | he) <;> rw [he] at hhead <;> revert hhead <;> decide
  simp only [jsBigIntOfChars, trimWs_digits h]
  rw [if_neg (fun hand => hx hand.2), if_neg (fun hand => ho hand.2),
    if_neg (fun hand => hb hand.2),
    if_neg (digit_ne_of_toNat hc '-' (by decide)),
    if_neg (digit_ne_of_toNat hc '+' (by decide)),
    decDigitsVal_digits h (by simp)]
  rfl

theorem jsBigIntOfChars_neg_digits {l : List Char} (h : AllDigits l)
    (hne : l ≠ []) :
    jsBigIntOfChars ('-' :: l) = some (-(natOfDigits l : ℤ)) := by
  have htrim : trimWs ('-' :: l) = '-' :: l := by
    apply trimWs_no_ws
    intro c hc
    rcases List.mem_cons.mp hc with rfl | hc
    · decide
    · exact digit_not_ws (h c hc)
  simp [jsBigIntOfChars, htrim, decDigitsVal_digits h hne]

theorem jsSplitDot_ne_nil (l : List Char) : jsSplitDot l ≠ [] := by
  cases l with
  | nil => simp [jsSplitDot]
  | cons c r =>
    unfold jsSplitDot
    by_cases h : c = '.'
    · simp [h]
    · rw [if_neg h]
      cases hr : jsSplitDot r <;> simp

theorem jsSplitDot_no_dot {l : List Char} (h : ∀ c ∈ l, ¬ c = '.') :
    jsSplitDot l = [l] := by
  induction l with
  | nil => rfl
  | cons c r ih =>
    unfold jsSplitDot
    rw [if_neg (h c (by simp)), ih fun x hx => h x (by simp [hx])]

theorem jsSplitDot_append {I : List Char} (h : ∀ c ∈ I, ¬ c = '.')
    (r : List Char) : jsSplitDot (I ++ '.' :: r) = I :: jsSplitDot r := by
  induction I with
  | nil => simp [jsSplitDot]
  | cons c t ih =>
    rw [List.cons_append]
    conv_lhs => rw [jsSplitDot]
    rw [if_neg (h c (by simp)), ih fun x hx => h x (by simp [hx])]

theorem digits_no_dot {l : List Char} (h : AllDigits l) : ∀ c ∈ l, ¬ c = '.' :=
  fun c hc => digit_ne_of_toNat (h c hc) '.' (by decide)

theorem jsParseFloat_digits {I F : List Char} (hI : AllDigits I)
    (hF : AllDigits F) (hne : I ≠ []) :
    jsParseFloat (I ++ '.' :: F) =
      some ((natOfDigits I : ℚ) + (natOfDigits F : ℚ) / 10 ^ F.length) := by
  obtain ⟨c, I', rfl⟩ := List.exists_cons_of_ne_nil hne
  have hc : isDigitChar c = true := hI c (by simp)
  have hI' : AllDigits I' := fun x hx => hI x (by simp [hx])
  have hdrop : List.dropWhile isStrWhiteSpace ((c :: I') ++ '.' :: F)
      = (c :: I') ++ '.' :: F := by
    rw [List.cons_append, List.dropWhile_cons, digit_not_ws hc]
    simp
  have hhead : ((c :: I') ++ '.' :: F).headD 'x' = c := by simp
  have hsign : ¬ (c = '-' ∨ c = '+') := by
    rintro (he | he)
    · exact digit_ne_of_toNat hc '-' (by decide) he
    · exact digit_ne_of_toNat hc '+' (by decide) he
  have htake : List.takeWhile isDigitChar ((c :: I') ++ '.' :: F) = c :: I' :=
    takeWhile_append_stop hI (by decide) F
  have hdropd : List.dropWhile isDigitChar ((c :: I') ++ '.' :: F) = '.' :: F :=
    dropWhile_append_stop hI (by decide) F
  have hF1 : List.takeWhile isDigitChar F = F := takeWhile_all hF
  have hF2 : List.dropWhile isDigitChar F = [] := dropWhile_all hF
  have hnegc : (c = '-') = False := by
    simp only [eq_iff_iff, iff_false]
    exact fun he => hsign (Or.inl he)
  simp only [jsParseFloat, hdrop, hhead, if_neg hsign, htake, hdropd,
    List.headD_cons, List.tail_cons, hF1, hF2]
  rw [if_neg (by simp)]
  simp [hnegc]

/-! ## `formatHuman` on non-negative amounts -/

theorem bigIntToString_nonneg {a : ℤ} (ha : 0 ≤ a) :
    bigIntToString a = natToDigitChars a.toNat := by
  unfold bigIntToString
  rw [if_neg (by omega)]

theorem formatHuman_nonneg {d : ℕ} (hd : 1 ≤ d) {a : ℤ} (ha : 0 ≤ a) :
    formatHuman d a = some ((a : ℚ) / 10 ^ d) := by
  have hbs := bigIntToString_nonneg ha
  set D := natToDigitChars a.toNat with hD
  set P := List.replicate (d + 1 - D.length) '0' ++ D with hP
  have hPd : AllDigits P := by
    intro c hc
    rcases List.mem_append.mp hc with h | h
    · rcases List.eq_of_mem_replicate h with rfl; decide
    · exact natToDigitChars_allDigits _ c h
  have hDne : D ≠ [] := natToDigitChars_ne_nil _
  have hDlen : 1 ≤ D.length := List.length_pos.mpr hDne
  have hPlen : d + 1 ≤ P.length := by
    rw [hP, List.length_append, List.length_replicate]; omega
  have hvP : natOfDigits P = a.toNat := by
    rw [hP, natOfDigits_zeros_append, hD, natOfDigits_natToDigitChars]
  have htlen : (P.take (P.length - d)).length = P.length - d := by
    rw [List.length_take]; omega
  have hine : P.take (P.length - d) ≠ [] := by
    intro hnil
    have := htlen
    rw [hnil] at this
    simp at this
    omega
  have hdlen : (P.drop (P.length - d)).length = d := by
    rw [List.length_drop]; omega
  simp only [formatHuman, hbs]
  rw [← hP]
  rw [if_neg (by omega : ¬ d = 0), if_neg (by omega : ¬ d = 0), if_neg hine]
  rw [jsParseFloat_digits (fun c hc => hPd c (List.take_subset _ _ hc))
    (fun c hc => hPd c (List.drop_subset _ _ hc)) hine]
  have hsplit : natOfDigits (P.take (P.length - d)) * 10 ^ d
      + natOfDigits (P.drop (P.length - d)) = a.toNat := by
    have := natOfDigits_append (P.take (P.length - d)) (P.drop (P.length - d))
    rw [List.take_append_drop, hvP, hdlen] at this
    omega
  rw [hdlen]
  have hcast : ((natOfDigits (P.take (P.length - d)) : ℚ) * 10 ^ d
      + natOfDigits (P.drop (P.length - d))) = (a : ℚ) := by
    have : ((a.toNat : ℤ) : ℚ) = (a : ℚ) := by
      rw [Int.toNat_of_nonneg ha]
    rw [← this, ← hsplit]
    push_cast
    ring
  have hpow : (10 : ℚ) ^ d ≠ 0 := by positivity
  congr 1
  field_simp
  linarith [hcast]

/-! ## `parseInput`: the fiat branch is redundant -/

theorem replicate_zero_no_dot (k : ℕ) :
    ∀ c ∈ List.replicate k '0', ¬ c = '.' := by
  intro c hc
  rcases List.eq_of_mem_replicate hc with rfl
  decide

theorem parseInput_str_eq_noFiat (currency : CurrencyInfo) (s : List Char) :
    parseInput currency (.str s) = parseInputNoFiat currency (.str s) := by
  simp only [parseInput, parseInputNoFiat]
  by_cases hc : currency.category = CurrencyCategory.Fiat ∧ ¬ s.contains '.' = true
  · rw [if_pos hc]
    have hnotin : ∀ c ∈ s, ¬ c = '.' := by
      intro c hcs he
      subst he
      have := hc.2
      simp at this
      exact this hcs
    rw [jsSplitDot_append hnotin,
      jsSplitDot_no_dot (replicate_zero_no_dot currency.decimals),
      jsSplitDot_no_dot hnotin]
    simp [List.take_replicate]
  · rw [if_neg hc]

theorem parseInput_num_eq_str (currency : CurrencyInfo) (s : List Char) :
    parseInput currency (.num s) = parseInput currency (.str s) := rfl

theorem parseInputNoFiat_num_eq_str (currency : CurrencyInfo) (s : List Char) :
    parseInputNoFiat currency (.num s) = parseInputNoFiat currency (.str s) := rfl

theorem parseInput_eq_noFiat (currency : CurrencyInfo) (v : AmountType) :
    parseInput currency v = parseInputNoFiat currency v := by
  cases v with
  | big n => rfl
  | num s =>
    rw [parseInput_num_eq_str, parseInputNoFiat_num_eq_str]
    exact parseInput_str_eq_noFiat currency s
  | str s => exact parseInput_str_eq_noFiat currency s

/-! ## `parseInput` on well-formed decimal digit strings -/

theorem parseInputNoFiat_dotted (currency : CurrencyInfo) {I F : List Char}
    (hI : AllDigits I) (hF : AllDigits F) (hne : I ≠ [])
    (hlen : F.length ≤ currency.decimals) :
    parseInputNoFiat currency (.str (I ++ '.' :: F)) =
      some ((natOfDigits I : ℤ) * 10 ^ currency.decimals
        + (natOfDigits F : ℤ) * 10 ^ (currency.decimals - F.length)) := by
  simp only [parseInputNoFiat]
  rw [jsSplitDot_append (digits_no_dot hI), jsSplitDot_no_dot (digits_no_dot hF)]
  simp only [List.headD_cons, List.drop_succ_cons, List.drop_zero]
  rw [List.take_of_length_le
    (by rw [List.length_append, List.length_replicate]; omega)]
  rw [jsBigIntOfChars_digits]
  · rw [natOfDigits_append, natOfDigits_append, natOfDigits_replicate_zero,
      List.length_append, List.length_replicate]
    have hdd : F.length + (currency.decimals - F.length) = currency.decimals := by
      omega
    rw [hdd]
    push_cast
    ring_nf
  · intro c hc
    rcases List.mem_append.mp hc with h1 | h1
    · exact hI c h1
    · rcases List.mem_append.mp h1 with h2 | h2
      · exact hF c h2
      · rcases List.eq_of_mem_replicate h2 with rfl; decide
  · intro hnil
    exact hne (List.append_eq_nil.mp hnil).1

theorem parseInputNoFiat_plain (currency : CurrencyInfo) {I : List Char}
    (hI : AllDigits I) (hne : I ≠ []) :
    parseInputNoFiat currency (.str I) =
      some ((natOfDigits I : ℤ) * 10 ^ currency.decimals) := by
  simp only [parseInputNoFiat]
  rw [jsSplitDot_no_dot (digits_no_dot hI)]
  simp only [List.headD_cons, List.drop_succ_cons, List.drop_zero,
    List.headD_nil, List.nil_append, List.length_nil, Nat.sub_zero,
    List.take_replicate, min_self]
  rw [jsBigIntOfChars_digits]
  · rw [natOfDigits_append, natOfDigits_replicate_zero, List.length_replicate]
    push_cast
    ring_nf
  · intro c hc
    rcases List.mem_append.mp hc with h1 | h1
    · exact hI c h1
    · rcases List.eq_of_mem_replicate h1 with rfl; decide
  · intro hnil
    exact hne (List.append_eq_nil.mp hnil).1

/-! ## Construction helpers -/

theorem currencyMapGet_codeChars (c : CurrencyCode) :
    currencyMapGet (codeChars c) = some (currencyMap c) := by
  cases c <;> rfl

theorem currencyMap_decimals_pos (c : CurrencyCode) :
    1 ≤ (currencyMap c).decimals := by
  cases c <;> norm_num [currencyMap, usdInfo, solInfo]

theorem currencyAmount_eval (c : CurrencyCode) (v : AmountType) {a : ℤ}
    (hp : parseInput (currencyMap c) v = some a) :
    currencyAmount v (codeChars c)
      = .ok { amount := a, currency := currencyMap c } := by
  unfold currencyAmount
  simp only [currencyMapGet_codeChars, hp]

theorem abs_mathRound_sub_le (x : ℚ) : |(mathRound x : ℚ) - x| ≤ 1 / 2 := by
  rw [abs_le]
  have h1 : ((⌊x + 1 / 2⌋ : ℤ) : ℚ) ≤ x + 1 / 2 := Int.floor_le _
  have h2 : x + 1 / 2 < (⌊x + 1 / 2⌋ : ℚ) + 1 := Int.lt_floor_add_one _
  unfold mathRound
  constructor <;> linarith

/-! ## binary64 rounding lemmas -/

theorem roundHalfEven_intCast (k : ℤ) : roundHalfEven (k : ℚ) = k := by
  unfold roundHalfEven
  rw [Int.floor_intCast]
  rw [if_pos (by norm_num)]

theorem floor_le_roundHalfEven (x : ℚ) : ⌊x⌋ ≤ roundHalfEven x := by
  unfold roundHalfEven
  split_ifs <;> omega

theorem roundHalfEven_le_half (x : ℚ) :
    ((roundHalfEven x : ℤ) : ℚ) ≤ x + 1 / 2 := by
  have hle : ((⌊x⌋ : ℤ) : ℚ) ≤ x := Int.floor_le x
  unfold roundHalfEven
  split_ifs with h1 h2 h3
  · linarith
  · push_cast
    linarith
  · linarith
  · push_cast
    linarith

theorem natLog2Aux_spec :
    ∀ fuel n : ℕ, 1 ≤ n → n ≤ fuel →
      2 ^ natLog2Aux fuel n ≤ n ∧ n < 2 ^ (natLog2Aux fuel n + 1) := by
  intro fuel
  induction fuel with
  | zero => intro n h1 h2; omega
  | succ f ih =>
    intro n h1 h2
    unfold natLog2Aux
    by_cases hle : n ≤ 1
    · rw [if_pos hle]
      constructor
      · simpa using h1
      · have : n = 1 := by omega
        simp [this]
    · rw [if_neg hle]
      obtain ⟨hlo, hhi⟩ := ih (n / 2) (by omega) (by omega)
      set k := natLog2Aux f (n / 2) with hk
      have e1 : (2 : ℕ) ^ (k + 1) = 2 ^ k * 2 := pow_succ 2 k
      have e2 : (2 : ℕ) ^ (k + 1 + 1) = 2 ^ (k + 1) * 2 := pow_succ 2 (k + 1)
      constructor
      · rw [e1]
        omega
      · rw [e2, e1]
        omega

theorem natLog2_spec {n : ℕ} (h : 1 ≤ n) :
    2 ^ natLog2 n ≤ n ∧ n < 2 ^ (natLog2 n + 1) :=
  natLog2Aux_spec n n h le_rfl

theorem floorLog2Q_spec {q : ℚ} (hq : 0 < q) :
    (2 : ℚ) ^ floorLog2Q q ≤ q ∧ q < 2 ^ (floorLog2Q q + 1) := by
  have hnum : 0 < q.num := Rat.num_pos.mpr hq
  have ha1 : 1 ≤ q.num.natAbs := by omega
  have hb1 : 1 ≤ q.den := q.pos
  obtain ⟨hal, hah⟩ := natLog2_spec ha1
  obtain ⟨hbl, hbh⟩ := natLog2_spec hb1
  set la := natLog2 q.num.natAbs with hla
  set lb := natLog2 q.den with hlb
  have hB0 : (0 : ℚ) < (q.den : ℚ) := by exact_mod_cast q.pos
  have hAeq : ((q.num.natAbs : ℕ) : ℚ) = (q.num : ℚ) := by
    rw [Int.cast_natAbs]
    exact_mod_cast abs_of_nonneg hnum.le
  have hqB : q * (q.den : ℚ) = ((q.num.natAbs : ℕ) : ℚ) := by
    rw [hAeq]
    have h := Rat.num_div_den q
    rw [div_eq_iff (ne_of_gt hB0)] at h
    exact h.symm
  have hup : q < 2 ^ (((la : ℤ) - lb) + 1) := by
    have h1 : q * (2 : ℚ) ^ lb ≤ q * (q.den : ℚ) := by
      apply mul_le_mul_of_nonneg_left _ hq.le
      exact_mod_cast hbl
    have h2 : q * (q.den : ℚ) < 2 ^ (la + 1) := by
      rw [hqB]
      exact_mod_cast hah
    have h3 : q * (2 : ℚ) ^ lb < 2 ^ (la + 1) := lt_of_le_of_lt h1 h2
    have h4 : q < (2 : ℚ) ^ (la + 1) / 2 ^ lb := (lt_div_iff₀ (by positivity)).mpr h3
    have h5 : ((2 : ℚ) ^ (la + 1) : ℚ) / 2 ^ lb = 2 ^ (((la : ℤ) - lb) + 1) := by
      rw [show ((la : ℤ) - lb) + 1 = ((la + 1 : ℕ) : ℤ) - (lb : ℤ) by push_cast; ring]
      rw [zpow_sub₀ (by norm_num : (2 : ℚ) ≠ 0)]
      norm_cast
    rw [h5] at h4
    exact h4
  have hlo : (2 : ℚ) ^ (((la : ℤ) - lb) - 1) < q := by
    have h1 : q * (q.den : ℚ) < q * (2 : ℚ) ^ (lb + 1) := by
      apply mul_lt_mul_of_pos_left _ hq
      exact_mod_cast hbh
    have h2 : (2 : ℚ) ^ la ≤ q * (q.den : ℚ) := by
      rw [hqB]
      exact_mod_cast hal
    have h3 : (2 : ℚ) ^ la < q * 2 ^ (lb + 1) := lt_of_le_of_lt h2 h1
    have h4 : (2 : ℚ) ^ la / 2 ^ (lb + 1) < q := (div_lt_iff₀ (by positivity)).mpr h3
    have h5 : ((2 : ℚ) ^ la : ℚ) / 2 ^ (lb + 1) = 2 ^ (((la : ℤ) - lb) - 1) := by
      rw [show ((la : ℤ) - lb) - 1 = ((la : ℕ) : ℤ) - ((lb + 1 : ℕ) : ℤ) by push_cast; ring]
      rw [zpow_sub₀ (by norm_num : (2 : ℚ) ≠ 0)]
      norm_cast
    rw [h5] at h4
    exact h4
  unfold floorLog2Q
  rw [← hla, ← hlb]
  by_cases hc : q < 2 ^ ((la : ℤ) - lb)
  · rw [if_pos hc]
    refine ⟨le_of_lt hlo, ?_⟩
    rw [show (la : ℤ) - lb - 1 + 1 = (la : ℤ) - lb by ring]
    exact hc
  · rw [if_neg hc]
    exact ⟨not_lt.mp hc, hup⟩

theorem roundToDouble_ne_nan (x : ℚ) : roundToDouble x ≠ .nan := by
  intro hcontra
  simp only [roundToDouble] at hcontra
  split_ifs at hcontra

theorem roundToDouble_int_small {n : ℤ} (h : |n| ≤ 2 ^ 53) :
    roundToDouble (n : ℚ) = .finite ((n : ℚ)) := by
  by_cases h0 : n = 0
  · subst h0
    simp [roundToDouble]
  have hx0 : ((n : ℚ)) ≠ 0 := by exact_mod_cast h0
  have habs : |(n : ℚ)| = ((|n| : ℤ) : ℚ) := by push_cast; rfl
  have habs_pos : (0 : ℚ) < |(n : ℚ)| := abs_pos.mpr hx0
  obtain ⟨hsl, hsh⟩ := floorLog2Q_spec habs_pos
  set E' := floorLog2Q |(n : ℚ)| with hE'
  have hub : |(n : ℚ)| ≤ (2 : ℚ) ^ (53 : ℤ) := by
    rw [habs]
    calc ((|n| : ℤ) : ℚ) ≤ ((2 ^ 53 : ℤ) : ℚ) := by exact_mod_cast h
      _ = (2 : ℚ) ^ (53 : ℤ) := by norm_num
  have hEle : E' ≤ 53 := by
    by_contra hgt
    push_neg at hgt
    have h1 : (2 : ℚ) ^ (54 : ℤ) ≤ 2 ^ E' := zpow_le_zpow_right₀ (by norm_num) (by omega)
    have h3 : (2 : ℚ) ^ (53 : ℤ) < 2 ^ (54 : ℤ) :=
      zpow_lt_zpow_right₀ (by norm_num) (by norm_num)
    linarith [le_trans h1 hsl]
  have hE0 : 0 ≤ E' := by
    by_contra hneg
    push_neg at hneg
    have h1 : (2 : ℚ) ^ (E' + 1) ≤ 2 ^ (0 : ℤ) :=
      zpow_le_zpow_right₀ (by norm_num) (by omega)
    have h2 : (1 : ℚ) ≤ |(n : ℚ)| := by
      rw [habs]
      exact_mod_cast Int.one_le_abs h0
    rw [zpow_zero] at h1
    linarith
  have hmax : max E' (-1022) = E' := max_eq_left (by omega)
  have hkey : ∃ k : ℤ, |(n : ℚ)| / 2 ^ (E' - 52) = (k : ℚ) := by
    rcases eq_or_lt_of_le hEle with h53 | h52
    · refine ⟨2 ^ 52, ?_⟩
      have hge : (2 ^ 53 : ℤ) ≤ |n| := by
        have h1 : (2 : ℚ) ^ (53 : ℤ) ≤ |(n : ℚ)| := by rw [← h53]; exact hsl
        rw [habs] at h1
        have h2 : ((2 ^ 53 : ℤ) : ℚ) ≤ ((|n| : ℤ) : ℚ) := by
          calc ((2 ^ 53 : ℤ) : ℚ) = (2 : ℚ) ^ (53 : ℤ) := by norm_num
            _ ≤ ((|n| : ℤ) : ℚ) := h1
        exact_mod_cast h2
      have heq : |n| = 2 ^ 53 := le_antisymm h hge
      rw [habs, heq, h53]
      rw [show (53 : ℤ) - 52 = (1 : ℤ) from by norm_num, zpow_one]
      push_cast
      norm_num
    · have hE52 : E' ≤ 52 := by omega
      refine ⟨|n| * 2 ^ (52 - E').toNat, ?_⟩
      rw [habs]
      rw [div_eq_iff (by positivity : ((2 : ℚ) ^ (E' - 52)) ≠ 0)]
      push_cast
      rw [show ((2 : ℚ) ^ (52 - E').toNat) = (2 : ℚ) ^ ((52 : ℤ) - E') from by
        rw [← zpow_natCast]
        congr 1
        omega]
      rw [mul_assoc, ← zpow_add₀ (by norm_num : (2 : ℚ) ≠ 0)]
      rw [show (52 : ℤ) - E' + (E' - 52) = (0 : ℤ) from by ring, zpow_zero, mul_one]
  obtain ⟨k, hk⟩ := hkey
  have hv : ((roundHalfEven (|(n : ℚ)| / 2 ^ (E' - 52)) : ℤ) : ℚ) * 2 ^ (E' - 52)
      = |(n : ℚ)| := by
    rw [hk, roundHalfEven_intCast, ← hk]
    field_simp
  have hnof : ¬ ((2 : ℚ) ^ 1024 ≤ |(n : ℚ)|) := by
    push_neg
    calc |(n : ℚ)| ≤ (2 : ℚ) ^ (53 : ℤ) := hub
      _ < 2 ^ 1024 := by norm_num
  simp only [roundToDouble]
  rw [if_neg hx0, ← hE', hmax, hv, if_neg hnof]
  rcases lt_or_le n 0 with hneg | hpos
  · rw [if_pos (by exact_mod_cast hneg : ((n : ℚ)) < 0)]
    rw [abs_of_neg (by exact_mod_cast hneg : ((n : ℚ)) < 0)]
    rw [neg_neg]
  · rw [if_neg (not_lt.mpr (by exact_mod_cast hpos : (0 : ℚ) ≤ (n : ℚ)))]
    rw [abs_of_nonneg (by exact_mod_cast hpos : (0 : ℚ) ≤ (n : ℚ))]

theorem roundToDouble_posInf_of_le {x : ℚ} (h : (2 : ℚ) ^ 1024 ≤ x) :
    roundToDouble x = .posInf := by
  have hxpos : 0 < x := lt_of_lt_of_le (by positivity) h
  have hx0 : x ≠ 0 := ne_of_gt hxpos
  obtain ⟨hsl, hsh⟩ := floorLog2Q_spec (abs_pos.mpr hx0)
  set E' := floorLog2Q |x| with hE'
  have habs : |x| = x := abs_of_pos hxpos
  have hpowcast : (2 : ℚ) ^ (1024 : ℤ) = 2 ^ (1024 : ℕ) := by
    rw [← zpow_natCast]
    norm_num
  have hE : (1024 : ℤ) ≤ E' := by
    by_contra hlt
    push_neg at hlt
    have h1 : (2 : ℚ) ^ (E' + 1) ≤ 2 ^ (1024 : ℤ) :=
      zpow_le_zpow_right₀ (by norm_num) (by omega)
    have h2 : |x| < 2 ^ (1024 : ℤ) := lt_of_lt_of_le hsh h1
    rw [habs, hpowcast] at h2
    linarith
  have hmax : max E' (-1022) = E' := max_eq_left (by omega)
  have hm : (2 : ℤ) ^ 52 ≤ roundHalfEven (|x| / 2 ^ (E' - 52)) := by
    refine le_trans ?_ (floor_le_roundHalfEven _)
    apply Int.le_floor.mpr
    rw [le_div_iff₀ (by positivity)]
    have hc : ((2 ^ 52 : ℤ) : ℚ) * 2 ^ (E' - 52) = 2 ^ E' := by
      rw [show ((2 ^ 52 : ℤ) : ℚ) = (2 : ℚ) ^ ((52 : ℕ) : ℤ) from by
        rw [zpow_natCast]
        push_cast
        ring]
      rw [← zpow_add₀ (by norm_num : (2 : ℚ) ≠ 0)]
      congr 1
      push_cast
      ring
    rw [hc]
    exact hsl
  have hv : (2 : ℚ) ^ 1024
      ≤ ((roundHalfEven (|x| / 2 ^ (E' - 52)) : ℤ) : ℚ) * 2 ^ (E' - 52) := by
    have h1 : ((2 : ℚ) ^ (52 : ℕ)) ≤ ((roundHalfEven (|x| / 2 ^ (E' - 52)) : ℤ) : ℚ) := by
      exact_mod_cast hm
    calc (2 : ℚ) ^ (1024 : ℕ) = 2 ^ (1024 : ℤ) := hpowcast.symm
      _ ≤ 2 ^ E' := zpow_le_zpow_right₀ (by norm_num) hE
      _ = 2 ^ ((52 : ℕ) : ℤ) * 2 ^ (E' - 52) := by
        rw [← zpow_add₀ (by norm_num : (2 : ℚ) ≠ 0)]
        congr 1
        push_cast
        ring
      _ = 2 ^ (52 : ℕ) * 2 ^ (E' - 52) := by rw [zpow_natCast]
      _ ≤ ((roundHalfEven (|x| / 2 ^ (E' - 52)) : ℤ) : ℚ) * 2 ^ (E' - 52) :=
        mul_le_mul_of_nonneg_right h1 (by positivity)
  simp only [roundToDouble]
  rw [if_neg hx0, ← hE', hmax, if_pos hv, if_neg (not_lt.mpr hxpos.le)]

theorem roundToDouble_isFinite_of_lt {x : ℚ} (h : |x| < (2 : ℚ) ^ 1023) :
    (roundToDouble x).isFinite = true := by
  by_cases hx0 : x = 0
  · subst hx0
    simp [roundToDouble, JsNumber.isFinite]
  obtain ⟨hsl, hsh⟩ := floorLog2Q_spec (abs_pos.mpr hx0)
  set E' := floorLog2Q |x| with hE'
  have hEle : E' ≤ 1022 := by
    by_contra hgt
    push_neg at hgt
    have h1 : (2 : ℚ) ^ ((1023 : ℕ) : ℤ) ≤ 2 ^ E' :=
      zpow_le_zpow_right₀ (by norm_num) (by omega)
    rw [zpow_natCast] at h1
    linarith [le_trans h1 hsl]
  set E := max E' (-1022) with hE
  have hE1022 : E ≤ 1022 := by
    rw [hE]
    exact max_le hEle (by norm_num)
  have hg : (0 : ℚ) < 2 ^ (E - 52) := by positivity
  have hgle : (2 : ℚ) ^ (E - 52) ≤ 2 ^ ((970 : ℕ) : ℤ) :=
    zpow_le_zpow_right₀ (by norm_num) (by omega)
  rw [zpow_natCast] at hgle
  have hmle := roundHalfEven_le_half (|x| / 2 ^ (E - 52))
  have hv : ((roundHalfEven (|x| / 2 ^ (E - 52)) : ℤ) : ℚ) * 2 ^ (E - 52)
      ≤ |x| + 2 ^ (E - 52) / 2 := by
    calc ((roundHalfEven (|x| / 2 ^ (E - 52)) : ℤ) : ℚ) * 2 ^ (E - 52)
        ≤ (|x| / 2 ^ (E - 52) + 1 / 2) * 2 ^ (E - 52) :=
          mul_le_mul_of_nonneg_right hmle hg.le
      _ = |x| + 2 ^ (E - 52) / 2 := by
          field_simp
          ring
  have hlt : ((roundHalfEven (|x| / 2 ^ (E - 52)) : ℤ) : ℚ) * 2 ^ (E - 52)
      < 2 ^ 1024 := by
    calc ((roundHalfEven (|x| / 2 ^ (E - 52)) : ℤ) : ℚ) * 2 ^ (E - 52)
        ≤ |x| + 2 ^ (E - 52) / 2 := hv
      _ < 2 ^ (1023 : ℕ) + 2 ^ (970 : ℕ) / 2 := by
          apply add_lt_add_of_lt_of_le h
          linarith
      _ < 2 ^ 1024 := by norm_num
  simp only [roundToDouble]
  rw [if_neg hx0, ← hE', ← hE, if_neg (not_le.mpr hlt)]
  split_ifs <;> rfl

theorem jsNumberOfBigInt_small {n : ℤ} (h : |n| ≤ 2 ^ 53) :
    jsNumberOfBigInt n = .finite ((n : ℚ)) := roundToDouble_int_small h

theorem jsNumberOfBigInt_posInf {n : ℤ} (h : (2 : ℤ) ^ 1024 ≤ n) :
    jsNumberOfBigInt n = .posInf := by
  apply roundToDouble_posInf_of_le
  calc (2 : ℚ) ^ 1024 = ((2 ^ 1024 : ℤ) : ℚ) := by push_cast; ring
    _ ≤ (n : ℚ) := by exact_mod_cast h

theorem jsNumberOfBigInt_ne_nan (n : ℤ) : jsNumberOfBigInt n ≠ .nan :=
  roundToDouble_ne_nan _

theorem jsBigIntOfNumber_mathRound (q : ℚ) :
    jsBigIntOfNumber (jsMathRound (.finite q)) = some (mathRound q) := by
  simp [jsMathRound, jsBigIntOfNumber, Rat.den_intCast, Rat.num_intCast]


theorem AllDigits_of_all {l : List Char} (h : l.all isDigitChar = true) :
    AllDigits l := fun c hc => List.all_eq_true.mp h c hc

theorem create_toDecimal_eq (c : CurrencyCode) (v : AmountType) {a : ℤ}
    (hp : parseInput (currencyMap c) v = some a) :
    (currencyAmount v (codeChars c)).toOption.bind CurrencyAmount.toDecimal
      = formatHuman (currencyMap c).decimals a := by
  rw [currencyAmount_eval c v hp]
  rfl

/-! ## The claims -/

/-- **C9**: for every known currency code and every input value, the
result of `parseInput` depends only on the currency's decimals: the fiat
branch that appends a decimal point and zeros to point-free input yields
exactly the atomic value of the general padding path, so `parseInput`
equals `parseInputNoFiat`, the variant with that branch removed. -/
theorem C9_fiat_branch_redundant (c : CurrencyCode) (v : AmountType) :
    parseInput (currencyMap c) v = parseInputNoFiat (currencyMap c) v :=
  parseInput_eq_noFiat (currencyMap c) v

/-- **C4**: for every known currency code, construction parses any string
or numeric input exactly as the spec describes — split at the decimal
point, right-pad / truncate the fractional part to `decimals` digits,
concatenate and parse as an integer, a missing fractional part acting as
all zeros — and in particular `create("1","sol").toAtomic()` is
`"1000000000"` (9 decimals). -/
theorem C4_parse_splits_pads_concatenates :
    (∀ (c : CurrencyCode) (v : AmountType),
      parseInput (currencyMap c) v = parseInputSpec (currencyMap c).decimals v) ∧
    Except.map CurrencyAmount.toAtomic
        (currencyAmount (.str ['1']) (codeChars .SOL))
      = .ok ('1' :: List.replicate 9 '0') := by
  constructor
  · intro c v
    rw [parseInput_eq_noFiat]
    cases v <;> rfl
  · decide

/-- **C2** counterexample: in the source registry `usd` has 4 decimal
digits, not 2, and `create("1.23","usd").toAtomic()` returns `"12300"`,
not `"123"`. -/
theorem C2_counterexample_usd_not_two_decimals :
    ¬ (currencyMap .USD).decimals = 2 ∧
    ¬ Except.map CurrencyAmount.toAtomic
        (currencyAmount (.str ['1', '.', '2', '3']) (codeChars .USD))
      = .ok ['1', '2', '3'] := by
  constructor
  · decide
  · decide

/-- **C2** amended: the registry maps `usd` to 4 decimal digits, so
`create("1.23","usd").toAtomic()` returns `"12300"`. -/
theorem C2_amended_usd_four_decimals :
    (currencyMap .USD).decimals = 4 ∧
    Except.map CurrencyAmount.toAtomic
        (currencyAmount (.str ['1', '.', '2', '3']) (codeChars .USD))
      = .ok ['1', '2', '3', '0', '0'] := by
  constructor
  · rfl
  · decide

/-- **C3**: a bigint input (atomic units) is stored unchanged for every
known currency code: construction succeeds with exactly that atomic
amount, and `toAtomic()` renders the decimal string of `n` — a string
that `BigInt` parses back to `n` itself. -/
theorem C3_bigint_input_stored_as_is (n : ℤ) (c : CurrencyCode) :
    currencyAmount (.big n) (codeChars c)
      = .ok { amount := n, currency := currencyMap c } ∧
    Except.map CurrencyAmount.toAtomic (currencyAmount (.big n) (codeChars c))
      = .ok (bigIntToString n) ∧
    jsBigIntOfChars (bigIntToString n) = some n := by
  have hca := currencyAmount_eval c (.big n) (rfl : parseInput _ (.big n) = some n)
  refine ⟨hca, by rw [hca]; rfl, ?_⟩
  by_cases hn : n < 0
  · unfold bigIntToString
    rw [if_pos hn,
      jsBigIntOfChars_neg_digits (natToDigitChars_allDigits _) (natToDigitChars_ne_nil _),
      natOfDigits_natToDigitChars]
    congr 1
    omega
  · unfold bigIntToString
    rw [if_neg hn,
      jsBigIntOfChars_digits (natToDigitChars_allDigits _) (natToDigitChars_ne_nil _),
      natOfDigits_natToDigitChars]
    congr 1
    omega

/-- `divide(0)` always throws: the float quotient is `Infinity` (or
`NaN` for a zero amount), `Math.round` keeps it, and `BigInt` then
throws a `RangeError`. -/
theorem divide_finite_zero_none (ca : CurrencyAmount) :
    ca.divide (.finite 0) = none := by
  unfold CurrencyAmount.divide
  cases hx : jsNumberOfBigInt ca.amount with
  | finite a =>
    by_cases ha : a = 0
    · simp [jsDiv, ha, jsMathRound, jsBigIntOfNumber]
    · rcases lt_or_gt_of_ne ha with hlt | hgt
      · simp [jsDiv, ha, not_lt.mpr hlt.le, jsMathRound, jsBigIntOfNumber]
      · simp [jsDiv, ha, hgt, jsMathRound, jsBigIntOfNumber]
  | posInf => simp [jsDiv, jsMathRound, jsBigIntOfNumber]
  | negInf => simp [jsDiv, jsMathRound, jsBigIntOfNumber]
  | nan => simp [jsDiv, jsMathRound, jsBigIntOfNumber]

/-- **C5** counterexample: arithmetic after successful construction CAN
fail: on a zero divisor the float quotient `Number(amount)/0` is
`Infinity`, `Math.round` keeps it, and `BigInt(...)` throws a
`RangeError`, so `divide(0)` fails on a successfully constructed
amount. -/
theorem C5_counterexample_divide_by_zero :
    currencyAmount (.str ['1', '0', '.', '0', '0']) (codeChars .USD)
      = .ok { amount := 100000, currency := usdInfo } ∧
    CurrencyAmount.divide { amount := 100000, currency := usdInfo } (.finite 0)
      = none := by
  constructor
  · decide
  · exact divide_finite_zero_none _

/-- **C5** amended: after successful construction, `add` and `subtract`
succeed whenever their operand parses; `divide(0)` always fails;
`multiply` and `divide` also fail when the float arithmetic leaves the
finite binary64 range — already `multiply(1)` fails on any amount
`≥ 2^1024`, whose `Number(bigint)` conversion is `Infinity` — while for
amounts in the exactly-convertible range (`|amount| ≤ 2^53`) they
succeed whenever the exact product / quotient stays below `2^1023` in
magnitude. -/
theorem C5_amended_arithmetic_totality (ca : CurrencyAmount) :
    (∀ (v : AmountType) (x : ℤ), parseInput ca.currency v = some x →
      ca.add v = some { ca with amount := ca.amount + x } ∧
      ca.subtract v = some { ca with amount := ca.amount - x }) ∧
    ca.divide (.finite 0) = none ∧
    ((2 : ℤ) ^ 1024 ≤ ca.amount → ca.multiply (.finite 1) = none) ∧
    (∀ q : ℚ, |ca.amount| ≤ 2 ^ 53 → |(ca.amount : ℚ) * q| < 2 ^ 1023 →
      (ca.multiply (.finite q)).isSome = true) ∧
    (∀ q : ℚ, |ca.amount| ≤ 2 ^ 53 → ¬ q = 0 →
      |(ca.amount : ℚ) / q| < 2 ^ 1023 →
      (ca.divide (.finite q)).isSome = true) := by
  refine ⟨?_, divide_finite_zero_none ca, ?_, ?_, ?_⟩
  · intro v x hx
    exact ⟨by simp [CurrencyAmount.add, hx], by simp [CurrencyAmount.subtract, hx]⟩
  · intro h
    unfold CurrencyAmount.multiply
    rw [jsNumberOfBigInt_posInf h]
    simp [jsMul, jsMathRound, jsBigIntOfNumber]
  · intro q h53 hsmall
    unfold CurrencyAmount.multiply
    rw [jsNumberOfBigInt_small h53]
    show (Option.map _
      (jsBigIntOfNumber (jsMathRound (roundToDouble ((ca.amount : ℚ) * q))))).isSome
        = true
    have hfin := roundToDouble_isFinite_of_lt hsmall
    cases hrd : roundToDouble ((ca.amount : ℚ) * q) with
    | finite p => simp [jsMathRound, jsBigIntOfNumber, Rat.den_intCast]
    | posInf => rw [hrd] at hfin; simp [JsNumber.isFinite] at hfin
    | negInf => rw [hrd] at hfin; simp [JsNumber.isFinite] at hfin
    | nan => rw [hrd] at hfin; simp [JsNumber.isFinite] at hfin
  · intro q h53 hq hsmall
    unfold CurrencyAmount.divide
    rw [jsNumberOfBigInt_small h53]
    show (Option.map _
      (jsBigIntOfNumber (jsMathRound (jsDiv (.finite (ca.amount : ℚ)) (.finite q))))).isSome
        = true
    rw [show jsDiv (.finite ((ca.amount : ℚ))) (.finite q)
        = roundToDouble ((ca.amount : ℚ) / q) from by simp [jsDiv, hq]]
    have hfin := roundToDouble_isFinite_of_lt hsmall
    cases hrd : roundToDouble ((ca.amount : ℚ) / q) with
    | finite p => simp [jsMathRound, jsBigIntOfNumber, Rat.den_intCast]
    | posInf => rw [hrd] at hfin; simp [JsNumber.isFinite] at hfin
    | negInf => rw [hrd] at hfin; simp [JsNumber.isFinite] at hfin
    | nan => rw [hrd] at hfin; simp [JsNumber.isFinite] at hfin

theorem C5_amended_arithmetic_totality_witness :
    CurrencyAmount.add { amount := 100000, currency := usdInfo } (.big 1)
      = some { amount := 100000 + 1, currency := usdInfo } ∧
    CurrencyAmount.divide { amount := 100000, currency := usdInfo } (.finite 0)
      = none ∧
    CurrencyAmount.multiply { amount := 2 ^ 1100, currency := usdInfo } (.finite 1)
      = none ∧
    (CurrencyAmount.multiply { amount := 100000, currency := usdInfo }
      (.finite 2)).isSome = true := by
  refine ⟨((C5_amended_arithmetic_totality
      { amount := 100000, currency := usdInfo }).1 (.big 1) 1 rfl).1,
    (C5_amended_arithmetic_totality
      { amount := 100000, currency := usdInfo }).2.1,
    (C5_amended_arithmetic_totality
      { amount := 2 ^ 1100, currency := usdInfo }).2.2.1
      (pow_le_pow_right₀ (by norm_num) (by norm_num)),
    (C5_amended_arithmetic_totality
      { amount := 100000, currency := usdInfo }).2.2.2.1 2 (by norm_num)
      (by norm_num)⟩

/-- Rounding an exact half up to an even integer: the binary64 tie
rule on `k + 1/2` for even `k`. -/
theorem roundHalfEven_int_add_half_even (k : ℤ) (hk : k % 2 = 0) :
    roundHalfEven ((k : ℚ) + 1 / 2) = k := by
  have hfl : ⌊(k : ℚ) + 1 / 2⌋ = k := by
    rw [Int.floor_eq_iff]
    constructor
    · linarith
    · linarith
  unfold roundHalfEven
  rw [hfl]
  rw [if_neg (by intro hcon; linarith),
    if_neg (by intro hcon; linarith), if_pos hk]

/-- `Number(2^53 + 1)` loses the last bit and is exactly `2^53`: the
first odd integer outside the float-exact range ties down to even. -/
theorem jsNumberOfBigInt_two_pow53_add_one :
    jsNumberOfBigInt ((2 : ℤ) ^ 53 + 1) = .finite ((2 : ℚ) ^ 53) := by
  unfold jsNumberOfBigInt
  set x : ℚ := (((2 : ℤ) ^ 53 + 1 : ℤ) : ℚ) with hx
  have hxval : x = 2 ^ 53 + 1 := by rw [hx]; push_cast; ring
  have hxpos : 0 < x := by rw [hxval]; positivity
  have hx0 : x ≠ 0 := ne_of_gt hxpos
  have habs : |x| = x := abs_of_pos hxpos
  obtain ⟨hsl, hsh⟩ := floorLog2Q_spec (abs_pos.mpr hx0)
  set E' := floorLog2Q |x| with hE'
  have hc53 : (2 : ℚ) ^ (53 : ℤ) = 2 ^ (53 : ℕ) := by
    rw [← zpow_natCast]
    norm_num
  have hc54 : (2 : ℚ) ^ (54 : ℤ) = 2 ^ (54 : ℕ) := by
    rw [← zpow_natCast]
    norm_num
  have hlow : (2 : ℚ) ^ (53 : ℤ) ≤ |x| := by
    rw [habs, hxval, hc53]
    linarith
  have hhigh : |x| < (2 : ℚ) ^ (54 : ℤ) := by
    rw [habs, hxval, hc54]
    norm_num
  have hE53 : E' = 53 := by
    by_contra hne
    rcases lt_or_gt_of_ne hne with hlt | hgt
    · have h1 : (2 : ℚ) ^ (E' + 1) ≤ 2 ^ (53 : ℤ) :=
        zpow_le_zpow_right₀ (by norm_num) (by omega)
      linarith
    · have h1 : (2 : ℚ) ^ (54 : ℤ) ≤ 2 ^ E' :=
        zpow_le_zpow_right₀ (by norm_num) (by omega)
      linarith
  have hmax : max E' (-1022) = E' := max_eq_left (by omega)
  have hgrid : |x| / 2 ^ (E' - 52) = (((2 : ℤ) ^ 52 : ℤ) : ℚ) + 1 / 2 := by
    rw [habs, hxval, hE53]
    rw [show (53 : ℤ) - 52 = (1 : ℤ) from by norm_num, zpow_one]
    push_cast
    ring
  have hm : roundHalfEven (|x| / 2 ^ (E' - 52)) = 2 ^ 52 := by
    rw [hgrid]
    exact roundHalfEven_int_add_half_even _ (by norm_num)
  simp only [roundToDouble]
  rw [if_neg hx0, ← hE', hmax, hm, hE53]
  rw [show (53 : ℤ) - 52 = (1 : ℤ) from by norm_num, zpow_one]
  rw [if_neg (by push_cast; norm_num)]
  rw [if_neg (not_lt.mpr hxpos.le)]
  congr 1
  push_cast
  ring

/-- **C8**: `multiply(factor)` / `divide(divisor)` multiply or divide
the atomic value converted to floating point (binary64, modelled
exactly) by the plain numeric argument and round the float result to
the nearest integer atomic unit (ties toward `+∞`), storing it back in
place with the currency unchanged: whenever the float product or
quotient is a finite value `p`, the stored amount is within one half of
`p`.  The float conversion is genuinely lossy: multiplying the amount
`2^53 + 1` by `1` stores `2^53`. -/
theorem C8_multiply_divide_round_nearest (ca : CurrencyAmount)
    (f : JsNumber) (p : ℚ) :
    (jsMul (jsNumberOfBigInt ca.amount) f = .finite p →
      ca.multiply f = some { ca with amount := mathRound p } ∧
      |((mathRound p : ℤ) : ℚ) - p| ≤ 1 / 2) ∧
    (jsDiv (jsNumberOfBigInt ca.amount) f = .finite p →
      ca.divide f = some { ca with amount := mathRound p } ∧
      |((mathRound p : ℤ) : ℚ) - p| ≤ 1 / 2) ∧
    CurrencyAmount.multiply { amount := 2 ^ 53 + 1, currency := usdInfo }
        (.finite 1)
      = some { amount := 2 ^ 53, currency := usdInfo } := by
  refine ⟨?_, ?_, ?_⟩
  · intro h
    refine ⟨?_, abs_mathRound_sub_le p⟩
    unfold CurrencyAmount.multiply
    rw [h, jsBigIntOfNumber_mathRound]
    rfl
  · intro h
    refine ⟨?_, abs_mathRound_sub_le p⟩
    unfold CurrencyAmount.divide
    rw [h, jsBigIntOfNumber_mathRound]
    rfl
  · unfold CurrencyAmount.multiply
    rw [show ({ amount := 2 ^ 53 + 1, currency := usdInfo } : CurrencyAmount).amount
        = (2 : ℤ) ^ 53 + 1 from rfl]
    rw [jsNumberOfBigInt_two_pow53_add_one]
    rw [show jsMul (.finite ((2 : ℚ) ^ 53)) (.finite 1)
        = roundToDouble ((2 : ℚ) ^ 53 * 1) from rfl]
    rw [show ((2 : ℚ) ^ 53 * 1) = (((2 : ℤ) ^ 53 : ℤ) : ℚ) from by push_cast; ring]
    rw [roundToDouble_int_small (by norm_num)]
    rw [jsBigIntOfNumber_mathRound]
    rw [show mathRound (((2 : ℤ) ^ 53 : ℤ) : ℚ) = 2 ^ 53 from by
      unfold mathRound
      rw [Int.floor_eq_iff]
      constructor
      · linarith
      · linarith]
    rfl

theorem C8_multiply_divide_round_nearest_witness :
    CurrencyAmount.multiply { amount := 7, currency := usdInfo } (.finite 2)
      = some { amount := 14, currency := usdInfo } ∧
    CurrencyAmount.divide { amount := 6, currency := usdInfo } (.finite 2)
      = some { amount := 3, currency := usdInfo } := by
  have h7 : jsNumberOfBigInt (7 : ℤ) = .finite ((7 : ℤ) : ℚ) :=
    jsNumberOfBigInt_small (by norm_num)
  have h6 : jsNumberOfBigInt (6 : ℤ) = .finite ((6 : ℤ) : ℚ) :=
    jsNumberOfBigInt_small (by norm_num)
  have hmul : jsMul (jsNumberOfBigInt (7 : ℤ)) (.finite 2) = .finite 14 := by
    rw [h7]
    show roundToDouble (((7 : ℤ) : ℚ) * 2) = .finite 14
    rw [show (((7 : ℤ) : ℚ) * 2) = ((14 : ℤ) : ℚ) from by norm_num]
    rw [roundToDouble_int_small (by norm_num)]
    norm_num
  have hdiv : jsDiv (jsNumberOfBigInt (6 : ℤ)) (.finite 2) = .finite 3 := by
    rw [h6]
    show jsDiv (.finite ((6 : ℤ) : ℚ)) (.finite 2) = .finite 3
    rw [show jsDiv (.finite ((6 : ℤ) : ℚ)) (.finite 2)
        = roundToDouble (((6 : ℤ) : ℚ) / 2) from by
      simp [jsDiv]]
    rw [show (((6 : ℤ) : ℚ) / 2) = ((3 : ℤ) : ℚ) from by norm_num]
    rw [roundToDouble_int_small (by norm_num)]
    norm_num
  constructor
  · have h1 := (C8_multiply_divide_round_nearest
      { amount := 7, currency := usdInfo } (.finite 2) 14).1 hmul
    rw [h1.1]
    congr 2
    unfold mathRound
    norm_num
  · have h1 := (C8_multiply_divide_round_nearest
      { amount := 6, currency := usdInfo } (.finite 2) 3).2.1 hdiv
    rw [h1.1]
    congr 2
    unfold mathRound
    norm_num

/-- **C10**: for every known currency and every non-negative atomic value,
`toDecimal()` returns exactly the number obtained by placing the decimal
point `decimals` digits from the right of the zero-left-padded atomic
digit string, i.e. `amount / 10 ^ decimals`; the hypothesis `0 ≤ a`
matches the claim's restriction to non-negative amounts (the left-padding
treats a minus sign as an ordinary character). -/
theorem C10_toDecimal_exact_nonneg (c : CurrencyCode) (a : ℤ) (ha : 0 ≤ a) :
    CurrencyAmount.toDecimal { amount := a, currency := currencyMap c }
      = some ((a : ℚ) / 10 ^ (currencyMap c).decimals) :=
  formatHuman_nonneg (currencyMap_decimals_pos c) ha

theorem C10_toDecimal_exact_nonneg_witness :
    CurrencyAmount.toDecimal { amount := 12300, currency := currencyMap .USD }
      = some (123 / 100) := by
  rw [C10_toDecimal_exact_nonneg .USD 12300 (by norm_num)]
  norm_num [currencyMap, usdInfo]

/-- **C1** counterexample: the construct-then-read-back round trip fails
for the negative input "-0.05" with usd (4 decimals): parsing stores
-500 atomic units, but `toDecimal()` returns 0, not -0.05, because
`formatHuman` left-pads the string "-500" to "0-500" and the fractional
chunk "-500" parses as nothing. -/
theorem C1_counterexample_negative_input :
    currencyAmount (.str ['-', '0', '.', '0', '5']) (codeChars .USD)
      = .ok { amount := -500, currency := usdInfo } ∧
    CurrencyAmount.toDecimal { amount := -500, currency := usdInfo }
      = some 0 ∧
    ¬ ((0 : ℚ) = -5 / 100) := by
  refine ⟨by decide, ?_, by norm_num⟩
  simp [CurrencyAmount.toDecimal, usdInfo, formatHuman, jsParseFloat,
    bigIntToString, natToDigitChars, natToDigitsAux, digitChar, natOfDigits,
    digitVal, isDigitChar, isStrWhiteSpace]

/-- **C1** amended: for every known currency with `decimals = d` and every
NON-NEGATIVE decimal input (digit string, with or without a fractional
part of at most `d` digits), construction followed by `toDecimal()`
returns the input's exact value. -/
theorem C1_roundtrip_nonneg (c : CurrencyCode) (I F : List Char)
    (hI : AllDigits I) (hF : AllDigits F) (hne : I ≠ [])
    (hlen : F.length ≤ (currencyMap c).decimals) :
    (currencyAmount (.str (I ++ '.' :: F)) (codeChars c)).toOption.bind
        CurrencyAmount.toDecimal
      = some ((natOfDigits I : ℚ) + (natOfDigits F : ℚ) / 10 ^ F.length) ∧
    (currencyAmount (.str I) (codeChars c)).toOption.bind
        CurrencyAmount.toDecimal
      = some ((natOfDigits I : ℚ)) := by
  have hd := currencyMap_decimals_pos c
  constructor
  · have hp : parseInput (currencyMap c) (.str (I ++ '.' :: F))
        = some ((natOfDigits I : ℤ) * 10 ^ (currencyMap c).decimals
          + (natOfDigits F : ℤ) * 10 ^ ((currencyMap c).decimals - F.length)) := by
      rw [parseInput_eq_noFiat]
      exact parseInputNoFiat_dotted _ hI hF hne hlen
    have hA0 : (0 : ℤ) ≤ (natOfDigits I : ℤ) * 10 ^ (currencyMap c).decimals
        + (natOfDigits F : ℤ) * 10 ^ ((currencyMap c).decimals - F.length) := by
      positivity
    rw [create_toDecimal_eq c _ hp, formatHuman_nonneg hd hA0]
    congr 1
    push_cast
    rw [← pow_sub_mul_pow (10 : ℚ) hlen]
    have h1 : (10 : ℚ) ^ ((currencyMap c).decimals - F.length) ≠ 0 := by
      positivity
    have h2 : (10 : ℚ) ^ F.length ≠ 0 := by positivity
    field_simp
    ring
  · have hp : parseInput (currencyMap c) (.str I)
        = some ((natOfDigits I : ℤ) * 10 ^ (currencyMap c).decimals) := by
      rw [parseInput_eq_noFiat]
      exact parseInputNoFiat_plain _ hI hne
    have hA0 : (0 : ℤ) ≤ (natOfDigits I : ℤ) * 10 ^ (currencyMap c).decimals := by
      positivity
    rw [create_toDecimal_eq c _ hp, formatHuman_nonneg hd hA0]
    congr 1
    push_cast
    have h2 : (10 : ℚ) ^ (currencyMap c).decimals ≠ 0 := by positivity
    field_simp

theorem C1_roundtrip_nonneg_witness :
    (currencyAmount (.str ['1', '.', '2', '3']) (codeChars .USD)).toOption.bind
        CurrencyAmount.toDecimal = some (123 / 100) := by
  have h := (C1_roundtrip_nonneg .USD ['1'] ['2', '3'] (AllDigits_of_all (by decide))
    (AllDigits_of_all (by decide)) (by decide) (by decide)).1
  have e1 : natOfDigits ['1'] = 1 := by decide
  have e2 : natOfDigits ['2', '3'] = 23 := by decide
  rw [e1, e2] at h
  rw [show (['1'] ++ '.' :: ['2', '3']) = ['1', '.', '2', '3'] from rfl] at h
  rw [h]
  norm_num

/-- **C7**: `add(value)` and `subtract(value)` parse the operand with the
same decimal/atomic rules as construction, add or subtract it to the
atomic amount, and return the updated instance (currency unchanged); and
the spec's examples hold: `create("10.00","usd").add("0.50").toDecimal()`
is 10.5 and `create("2.00","usd").subtract(0.75).toDecimal()` is 1.25. -/
theorem C7_add_subtract_parse_like_construction :
    (∀ (ca : CurrencyAmount) (v : AmountType) (x : ℤ),
      parseInput ca.currency v = some x →
        ca.add v = some { ca with amount := ca.amount + x } ∧
        ca.subtract v = some { ca with amount := ca.amount - x }) ∧
    (currencyAmount (.str ['1', '0', '.', '0', '0']) (codeChars .USD)).toOption.bind
        (fun ca => (ca.add (.str ['0', '.', '5', '0'])).bind
          CurrencyAmount.toDecimal)
      = some (21 / 2) ∧
    (currencyAmount (.str ['2', '.', '0', '0']) (codeChars .USD)).toOption.bind
        (fun ca => (ca.subtract (.num ['0', '.', '7', '5'])).bind
          CurrencyAmount.toDecimal)
      = some (5 / 4) := by
  refine ⟨?_, ?_, ?_⟩
  · intro ca v x hx
    exact ⟨by simp [CurrencyAmount.add, hx], by simp [CurrencyAmount.subtract, hx]⟩
  · have hca : currencyAmount (.str ['1', '0', '.', '0', '0']) (codeChars .USD)
        = .ok { amount := 100000, currency := usdInfo } := by decide
    have hadd : CurrencyAmount.add { amount := 100000, currency := usdInfo }
        (.str ['0', '.', '5', '0'])
        = some { amount := 105000, currency := usdInfo } := by decide
    rw [hca]
    show (CurrencyAmount.add { amount := 100000, currency := usdInfo }
        (.str ['0', '.', '5', '0'])).bind CurrencyAmount.toDecimal = some (21 / 2)
    rw [hadd]
    show formatHuman 4 105000 = some (21 / 2)
    rw [formatHuman_nonneg (by norm_num) (by norm_num)]
    norm_num
  · have hca : currencyAmount (.str ['2', '.', '0', '0']) (codeChars .USD)
        = .ok { amount := 20000, currency := usdInfo } := by decide
    have hsub : CurrencyAmount.subtract { amount := 20000, currency := usdInfo }
        (.num ['0', '.', '7', '5'])
        = some { amount := 12500, currency := usdInfo } := by decide
    rw [hca]
    show (CurrencyAmount.subtract { amount := 20000, currency := usdInfo }
        (.num ['0', '.', '7', '5'])).bind CurrencyAmount.toDecimal = some (5 / 4)
    rw [hsub]
    show formatHuman 4 12500 = some (5 / 4)
    rw [formatHuman_nonneg (by norm_num) (by norm_num)]
    norm_num

/-- **C6** counterexample: construction failure is NOT "if and only if the
input is non-numeric": the non-numeric string "1.2.3" constructs
successfully (the split drops everything after the second dot), while the
numeric string "1e3" fails with InvalidAmount. -/
theorem C6_counterexample_numeric_not_iff :
    numericStringSpec ['1', '.', '2', '.', '3'] = false ∧
    currencyAmount (.str ['1', '.', '2', '.', '3']) (codeChars .USD)
      = .ok { amount := 12000, currency := usdInfo } ∧
    numericStringSpec ['1', 'e', '3'] = true ∧
    currencyAmount (.str ['1', 'e', '3']) (codeChars .SOL)
      = .error .invalidAmount := by
  refine ⟨by decide, by decide, by decide, by decide⟩

/-- **C6** amended: construction fails with InvalidCurrency exactly on an
unknown currency code; with a known code it fails with InvalidAmount
exactly when the concatenated integer-and-padded-fraction string is not a
valid `BigInt` literal, and on success the object holds exactly the
parsed atomic amount with the looked-up currency (no partial state). -/
theorem C6_failure_characterization (v : AmountType) (code : List Char) :
    (currencyMapGet code = none ↔
      currencyAmount v code = .error .invalidCurrency) ∧
    (∀ currency, currencyMapGet code = some currency →
      ((currencyAmount v code = .error .invalidAmount ↔
        parseInput currency v = none) ∧
      (∀ a, parseInput currency v = some a →
        currencyAmount v code = .ok { amount := a, currency := currency }))) := by
  constructor
  · constructor
    · intro h
      unfold currencyAmount
      rw [h]
    · intro h
      cases hg : currencyMapGet code with
      | none => rfl
      | some cu =>
        unfold currencyAmount at h
        simp only [hg] at h
        cases hp : parseInput cu v with
        | none =>
          simp only [hp] at h
          simp at h
        | some a =>
          simp only [hp] at h
          simp at h
  · intro currency hg
    constructor
    · constructor
      · intro h
        unfold currencyAmount at h
        simp only [hg] at h
        cases hp : parseInput currency v with
        | none => rfl
        | some a =>
          simp only [hp] at h
          simp at h
      · intro h
        unfold currencyAmount
        simp only [hg, h]
    · intro a hp
      unfold currencyAmount
      simp only [hg, hp]

theorem C6_failure_characterization_witness :
    currencyAmount (AmountType.big 5) ['x', 'y', 'z']
      = .error .invalidCurrency ∧
    currencyAmount (AmountType.big 5) (codeChars .USD)
      = .ok { amount := 5, currency := usdInfo } := by
  refine ⟨(C6_failure_characterization (.big 5) ['x', 'y', 'z']).1.mp
    (by decide), ?_⟩
  exact ((C6_failure_characterization (.big 5) (codeChars .USD)).2 usdInfo
    (by decide)).2 5 rfl

theorem C7_add_subtract_parse_like_construction_witness :
    CurrencyAmount.subtract { amount := 20000, currency := usdInfo }
        (.big 500)
      = some { amount := 20000 - 500, currency := usdInfo } ∧
    (currencyAmount (.str ['1', '0', '.', '0', '0']) (codeChars .USD)).toOption.bind
        (fun ca => (ca.add (.str ['0', '.', '5', '0'])).bind
          CurrencyAmount.toDecimal)
      = some (21 / 2) := by
  refine ⟨(C7_add_subtract_parse_like_construction.1
    { amount := 20000, currency := usdInfo } (.big 500) 500 rfl).2,
    C7_add_subtract_parse_like_construction.2.1⟩
